import Mathlib

/-!
Verification of the video-visual-reasoning front end.

Strings from the TypeScript source are modelled as `List Char` (JS strings
are sequences of UTF-16 code points; every string handled here stays inside
the Unicode scalar values, so `Char` is faithful).  JS numbers produced by
`parseInt` are modelled as `Option Int`, with `none` playing the role of
`NaN`; arithmetic on them propagates `none` exactly as JS arithmetic
propagates `NaN`.

Each definition is a direct transcription of a function or expression of the
repository source; the file and line of the original is given in the doc
comment of every definition.
-/

/-- The ASCII part of the JS whitespace class used by `String.prototype.trim`
and the regex class `\s` (space, tab, LF, VT, FF, CR).  All structural
markers of the parsed document template are non-whitespace ASCII or emoji,
so restricting to the ASCII whitespace set does not change any of the
modelled behaviour on the documents in question. -/
def jsWsChar (c : Char) : Bool :=
  c == ' ' || c == '\t' || c == '\n' || c == '\r' || c == Char.ofNat 11 || c == Char.ofNat 12

/-- Model of `s.trimStart()` / the leading half of `s.trim()`. -/
def jsTrimStart (s : List Char) : List Char := s.dropWhile jsWsChar

/-- Model of `s.trimEnd()` / the trailing half of `s.trim()`. -/
def jsTrimEnd (s : List Char) : List Char := (s.reverse.dropWhile jsWsChar).reverse

/-- Model of `s.trim()`. -/
def jsTrim (s : List Char) : List Char := jsTrimEnd (jsTrimStart s)

/-- Model of `s.split(sep)` for a single-character separator: always returns
at least one (possibly empty) piece, e.g. `"".split(':') = [""]`. -/
def jsSplitChar (sep : Char) : List Char → List (List Char)
  | [] => [[]]
  | c :: rest =>
    let r := jsSplitChar sep rest
    if c == sep then [] :: r
    else (c :: r.headD []) :: r.tail

/-- Value of the longest digit prefix of `l`; `none` when there is no leading
digit (the `NaN` case of `parseInt`). -/
def digitsVal (l : List Char) : Option Nat :=
  let ds := l.takeWhile Char.isDigit
  if ds.isEmpty then none
  else some (ds.foldl (fun a c => a * 10 + (c.toNat - 48)) 0)

/-- Model of JS `parseInt(s, 10)`: skip leading whitespace, optional sign,
then the longest digit prefix; `none` models `NaN`. -/
def jsParseInt (s : List Char) : Option Int :=
  let t := s.dropWhile jsWsChar
  match t with
  | '-' :: r => (digitsVal r).map (fun n => -(n : Int))
  | '+' :: r => (digitsVal r).map (fun n => (n : Int))
  | _ => (digitsVal t).map (fun n => (n : Int))

/-- JS multiplication by a constant with `NaN` propagation. -/
def nanMul (x : Option Int) (k : Int) : Option Int := x.map (fun a => a * k)

/-- JS addition with `NaN` propagation. -/
def nanAdd (x y : Option Int) : Option Int := x.bind (fun a => y.map (fun b => a + b))

/-- The list `clean.split(':').map(part => parseInt(part, 10))` of
`parseTimestamp` (src/services/compression.ts lines 105-106), where `clean`
is the input with every `[` and `]` removed (`replace(/[\[\]]/g, '')`). -/
def timestampParts (ts : List Char) : List (Option Int) :=
  (jsSplitChar ':' (ts.filter (fun c => !(c == '[' || c == ']')))).map jsParseInt

/-- Model of `parseTimestamp` (src/services/compression.ts lines 102-115).
The result is an `Option Int`: `some n` is the JS number `n`, `none` is
`NaN` (which the JS function returns whenever a 2- or 3-part token has a
part on which `parseInt` yields `NaN`). -/
def parseTimestamp (ts : List Char) : Option Int :=
  if ts.isEmpty then some 0
  else
    match timestampParts ts with
    | [a, b] => nanAdd (nanMul a 60) b
    | [a, b, c] => nanAdd (nanAdd (nanMul a 3600) (nanMul b 60)) c
    | _ => some 0

/-- Claim C1, counterexample: the claim states that non-numeric content in a
timestamp token yields `0` and that `parseTimestamp` always returns a
non-negative integer.  On the concrete input `"a:b"` the code splits into
two parts, `parseInt` yields `NaN` on each, and `NaN*60 + NaN = NaN` is
returned — not `0` and not a non-negative integer. -/
theorem C1_counterexample :
    parseTimestamp ("a:b".toList) = none ∧ (none : Option Int) ≠ some 0 := by
  decide

/-- Claim C1, amended: `parseTimestamp` is total; empty input or a part
count other than 2 or 3 yields 0; a 2-part (resp. 3-part) token whose parts
all parse as integers yields `60*MM + SS` (resp. `3600*HH + 60*MM + SS`,
negative when a part is negative); a 2- or 3-part token with a non-numeric
part yields `NaN` (not 0); the four documented examples hold. -/
theorem C1_amended (l : List Char) :
    (l.isEmpty = true → parseTimestamp l = some 0) ∧
    ((timestampParts l).length ≠ 2 → (timestampParts l).length ≠ 3 → parseTimestamp l = some 0) ∧
    (∀ a b : Int, timestampParts l = [some a, some b] →
      parseTimestamp l = some (a * 60 + b)) ∧
    (∀ a b c : Int, timestampParts l = [some a, some b, some c] →
      parseTimestamp l = some (a * 3600 + b * 60 + c)) ∧
    (((timestampParts l).length = 2 ∨ (timestampParts l).length = 3) →
      none ∈ timestampParts l → parseTimestamp l = none) ∧
    parseTimestamp ("01:30".toList) = some 90 ∧
    parseTimestamp ("01:02:03".toList) = some 3723 ∧
    parseTimestamp ("".toList) = some 0 ∧
    parseTimestamp ("garbage".toList) = some 0 := by
  have hnil : timestampParts [] = [none] := by decide
  refine ⟨?_, ?_, ?_, ?_, ?_, by decide, by decide, by decide, by decide⟩
  · intro h
    simp [parseTimestamp, h]
  · intro h2 h3
    by_cases he : l.isEmpty
    · simp [parseTimestamp, he]
    · simp only [parseTimestamp, he, if_false]
      rcases hp : timestampParts l with _ | ⟨a, _ | ⟨b, _ | ⟨c, _ | ⟨d, rest⟩⟩⟩⟩
      · rfl
      · rfl
      · exact absurd (by rw [hp]; rfl) h2
      · exact absurd (by rw [hp]; rfl) h3
      · rfl
  · intro a b hp
    by_cases he : l.isEmpty
    · rw [List.isEmpty_iff] at he
      subst he
      rw [hnil] at hp
      simp at hp
    · simp [parseTimestamp, he, hp, nanMul, nanAdd]
  · intro a b c hp
    by_cases he : l.isEmpty
    · rw [List.isEmpty_iff] at he
      subst he
      rw [hnil] at hp
      simp at hp
    · simp [parseTimestamp, he, hp, nanMul, nanAdd]
  · intro hlen hmem
    by_cases he : l.isEmpty
    · rw [List.isEmpty_iff] at he
      subst he
      rw [hnil] at hlen
      simp at hlen
    · simp only [parseTimestamp, he, if_false]
      rcases hp : timestampParts l with _ | ⟨a, _ | ⟨b, _ | ⟨c, _ | ⟨d, rest⟩⟩⟩⟩ <;>
        rw [hp] at hlen hmem <;> simp at hlen hmem ⊢
      · rcases hmem with h | h
        · subst h; simp [nanMul, nanAdd]
        · subst h; cases nanMul a 60 <;> simp [nanAdd]
      · rcases hmem with h | h | h
        · subst h; simp [nanMul, nanAdd]
        · subst h; cases nanMul a 3600 <;> simp [nanAdd, nanMul]
        · subst h; cases nanAdd (nanMul a 3600) (nanMul b 60) <;> simp [nanAdd]

/-- Claim C1, witness for the amended theorem: a concrete well-formed
two-part token evaluates as `60*MM + SS`. -/
theorem C1_amended_witness :
    timestampParts ("5:7".toList) = [some 5, some 7] ∧
      parseTimestamp ("5:7".toList) = some (5 * 60 + 7) :=
  ⟨by decide, (C1_amended ("5:7".toList)).2.2.1 5 7 (by decide)⟩

/-! Occurrence and prefix machinery used to reason about the regex-driven
response parser.  `List.isPrefixOf` plays the role of `startsWith`. -/

/-- Bridge between the boolean `isPrefixOf` and an append decomposition. -/
theorem pfx_iff : ∀ (p s : List Char), p.isPrefixOf s = true ↔ ∃ t, s = p ++ t
  | [], s => by simp [List.isPrefixOf]
  | a :: p, [] => by simp [List.isPrefixOf]
  | a :: p, b :: s => by
    simp only [List.isPrefixOf, Bool.and_eq_true, beq_iff_eq]
    constructor
    · rintro ⟨rfl, h⟩
      obtain ⟨t, rfl⟩ := (pfx_iff p s).1 h
      exact ⟨t, rfl⟩
    · rintro ⟨t, ht⟩
      rw [List.cons_append] at ht
      injection ht with h1 h2
      exact ⟨h1.symm, (pfx_iff p s).2 ⟨t, h2⟩⟩

/-- A prefix of `s` is a prefix of `s ++ t`. -/
theorem pfx_append_right (t : List Char) {p s : List Char}
    (h : p.isPrefixOf s = true) : p.isPrefixOf (s ++ t) = true := by
  obtain ⟨u, rfl⟩ := (pfx_iff p s).1 h
  exact (pfx_iff _ _).2 ⟨u ++ t, by simp⟩

/-- A nonempty list is not a prefix of the empty list. -/
theorem pfx_nil_false {p : List Char} (h : p ≠ []) : p.isPrefixOf ([] : List Char) = false := by
  cases p with
  | nil => exact absurd rfl h
  | cons a q => rfl

/-- Whether `pat` occurs as a contiguous sublist of `s` (at any position,
including position 0). -/
def hasOcc (pat : List Char) : List Char → Bool
  | [] => pat.isEmpty
  | c :: rest => pat.isPrefixOf (c :: rest) || hasOcc pat rest

/-- Number of positions of `s` at which `pat` starts (the positions at which
the JS scanning of a zero-width lookahead for the literal `pat` matches). -/
def countOcc (pat : List Char) : List Char → Nat
  | [] => 0
  | c :: rest => (if pat.isPrefixOf (c :: rest) = true then 1 else 0) + countOcc pat rest

theorem hasOcc_nil_pat : ∀ (s : List Char), hasOcc [] s = true
  | [] => rfl
  | c :: rest => by simp [hasOcc, List.isPrefixOf]

theorem hasOcc_of_pfx {pat s : List Char} (h : pat.isPrefixOf s = true) :
    hasOcc pat s = true := by
  cases s with
  | nil =>
    obtain ⟨t, ht⟩ := (pfx_iff pat []).1 h
    have : pat = [] := by
      cases pat with
      | nil => rfl
      | cons a q => simp at ht
    simp [this, hasOcc]
  | cons c rest => simp [hasOcc, h]

theorem hasOcc_append_right {pat : List Char} (v : List Char) :
    ∀ u, hasOcc pat u = true → hasOcc pat (u ++ v) = true := by
  intro u
  induction u with
  | nil =>
    intro h
    have hp : pat = [] := by
      simpa [hasOcc, List.isEmpty_iff] using h
    subst hp
    exact hasOcc_nil_pat v
  | cons a u ih =>
    intro h
    rw [show hasOcc pat (a :: u) = (pat.isPrefixOf (a :: u) || hasOcc pat u) from rfl,
      Bool.or_eq_true] at h
    rcases h with h1 | h1
    · have h2 := pfx_append_right v h1
      rw [List.cons_append] at h2
      rw [List.cons_append]
      show (pat.isPrefixOf (a :: (u ++ v)) || hasOcc pat (u ++ v)) = true
      rw [h2, Bool.true_or]
    · rw [List.cons_append]
      show (pat.isPrefixOf (a :: (u ++ v)) || hasOcc pat (u ++ v)) = true
      rw [ih h1, Bool.or_true]

theorem hasOcc_append_left {pat : List Char} (u : List Char) :
    ∀ {v}, hasOcc pat v = true → hasOcc pat (u ++ v) = true := by
  induction u with
  | nil => intro v h; simpa using h
  | cons a u ih =>
    intro v h
    rw [List.cons_append]
    show (pat.isPrefixOf (a :: (u ++ v)) || hasOcc pat (u ++ v)) = true
    rw [ih h, Bool.or_true]

theorem countOcc_eq_zero_of_not_occ {pat : List Char} :
    ∀ {s}, hasOcc pat s = false → countOcc pat s = 0 := by
  intro s
  induction s with
  | nil => intro h; rfl
  | cons c rest ih =>
    intro h
    simp only [hasOcc, Bool.or_eq_false_iff] at h
    simp [countOcc, h.1, ih h.2]

theorem drop_append_le :
    ∀ (n : Nat) (a b : List Char), n ≤ a.length → (a ++ b).drop n = a.drop n ++ b := by
  intro n
  induction n with
  | zero => intro a b _; simp
  | succ m ih =>
    intro a b h
    cases a with
    | nil => simp at h
    | cons c a' =>
      simp only [List.cons_append, List.drop_succ_cons]
      exact ih a' b (by simpa using h)

theorem take_append_le :
    ∀ (n : Nat) (a b : List Char), n ≤ a.length → (a ++ b).take n = a.take n := by
  intro n
  induction n with
  | zero => intro a b _; simp
  | succ m ih =>
    intro a b h
    cases a with
    | nil => simp at h
    | cons c a' =>
      simp only [List.cons_append, List.take_succ_cons]
      rw [ih a' b (by simpa using h)]

theorem take_len_append : ∀ (a b : List Char), (a ++ b).take a.length = a := by
  intro a b
  induction a with
  | nil => simp
  | cons c a' ih =>
    simp only [List.cons_append, List.length_cons, List.take_succ_cons]
    rw [ih]

/-- `d` has no nontrivial border (no proper prefix equal to a suffix at the
matching offset); for such a pattern two occurrences can never overlap. -/
def noBorder (d : List Char) : Prop :=
  ∀ k, 0 < k → k < d.length → d.drop k ≠ d.take (d.length - k)

/-- Inside the span of one occurrence of a border-free pattern no second
occurrence can start. -/
theorem no_early_occ {d s : List Char} (hnb : noBorder d)
    (hpf : d.isPrefixOf s = true) {k : Nat} (hk0 : 0 < k) (hkd : k < d.length) :
    d.isPrefixOf (s.drop k) = false := by
  by_contra hB
  rw [Bool.not_eq_false] at hB
  obtain ⟨u, rfl⟩ := (pfx_iff d s).1 hpf
  rw [drop_append_le k d u (le_of_lt hkd)] at hB
  obtain ⟨w, hw⟩ := (pfx_iff d _).1 hB
  have h1 : (d.drop k ++ u).take (d.length - k) = d.drop k := by
    have hlen : (d.drop k).length = d.length - k := List.length_drop k d
    rw [← hlen]
    exact take_len_append (d.drop k) u
  have h2 : (d ++ w).take (d.length - k) = d.take (d.length - k) :=
    take_append_le _ d w (Nat.sub_le _ _)
  rw [hw, h2] at h1
  exact hnb k hk0 hkd h1.symm

/-- The maximal prefix of `s` stopping at the first occurrence of `d` (all
of `s` if `d` never occurs): the text captured by a lazy `([\s\S]*?)` group
terminated by a lookahead for the literal `d` with an `|$` alternative. -/
def leadOf (d : List Char) : List Char → List Char
  | [] => []
  | c :: rest => if d.isPrefixOf (c :: rest) = true then [] else c :: leadOf d rest

theorem leadOf_decomp (d : List Char) : ∀ s, ∃ t, s = leadOf d s ++ t := by
  intro s
  induction s with
  | nil => exact ⟨[], rfl⟩
  | cons c rest ih =>
    by_cases h : d.isPrefixOf (c :: rest) = true
    · exact ⟨c :: rest, by simp [leadOf, h]⟩
    · obtain ⟨t, ht⟩ := ih
      refine ⟨t, ?_⟩
      simp only [leadOf, h, Bool.false_eq_true, if_false, List.cons_append]
      rw [← ht]

theorem leadOf_sound (d : List Char) :
    ∀ s k, k < (leadOf d s).length → d.isPrefixOf (s.drop k) = false := by
  intro s
  induction s with
  | nil => intro k hk; simp [leadOf] at hk
  | cons c rest ih =>
    intro k hk
    by_cases h : d.isPrefixOf (c :: rest) = true
    · simp [leadOf, h] at hk
    · cases k with
      | zero =>
        simp only [List.drop_zero]
        revert h
        cases d.isPrefixOf (c :: rest) <;> simp
      | succ m =>
        rw [List.drop_succ_cons]
        apply ih
        simp only [leadOf, h, Bool.false_eq_true, if_false, List.length_cons] at hk
        omega

theorem leadOf_take (d : List Char) :
    ∀ (n : Nat) (s : List Char), n ≤ s.length →
      (∀ k, k < n → d.isPrefixOf (s.drop k) = false) →
      leadOf d s = s.take n ++ leadOf d (s.drop n) := by
  intro n
  induction n with
  | zero => intro s _ _; simp
  | succ m ih =>
    intro s hlen hocc
    cases s with
    | nil => simp at hlen
    | cons c rest =>
      have h0 : d.isPrefixOf (c :: rest) = false := by
        simpa using hocc 0 (Nat.succ_pos m)
      have h0' : ¬ d.isPrefixOf (c :: rest) = true := by simp [h0]
      simp only [leadOf, h0', Bool.false_eq_true, if_false, List.take_succ_cons,
        List.drop_succ_cons, List.cons_append]
      rw [ih rest (by simpa using Nat.succ_le_succ_iff.mp (by simpa using hlen)) ?_]
      intro k hk
      have := hocc (k + 1) (Nat.succ_lt_succ hk)
      rwa [List.drop_succ_cons] at this

/-- If a border-free `d` starts at the head of `c :: rest`, then the split
piece `c :: leadOf d rest` (which runs to the next occurrence or the end)
contains the whole of `d` as a prefix. -/
theorem delim_pfx_lead {d : List Char} (hnb : noBorder d) {c : Char} {rest : List Char}
    (hpf : d.isPrefixOf (c :: rest) = true) :
    d.isPrefixOf (c :: leadOf d rest) = true := by
  cases d with
  | nil => rfl
  | cons e d' =>
    obtain ⟨u, hu⟩ := (pfx_iff (e :: d') (c :: rest)).1 hpf
    have hlenr : (e :: d').length - 1 ≤ rest.length := by
      have hlen2 := congrArg List.length hu
      simp only [List.length_cons, List.length_append] at hlen2
      simp only [List.length_cons]
      omega
    have hocc : ∀ k, k < (e :: d').length - 1 → (e :: d').isPrefixOf (rest.drop k) = false := by
      intro k hk
      have h2 := no_early_occ hnb hpf (k := k + 1) (Nat.succ_pos k)
        (by simp only [List.length_cons] at hk ⊢; omega)
      rwa [List.drop_succ_cons] at h2
    have hlead := leadOf_take (e :: d') ((e :: d').length - 1) rest hlenr hocc
    rw [pfx_iff]
    refine ⟨leadOf (e :: d') (rest.drop ((e :: d').length - 1)), ?_⟩
    rw [hlead, ← List.cons_append]
    have h3 : c :: rest.take ((e :: d').length - 1) = (c :: rest).take (e :: d').length := by
      simp only [List.length_cons, Nat.add_sub_cancel, List.take_succ_cons]
    rw [h3, hu, take_len_append]

theorem dropWhile_append_split (q : Char → Bool) :
    ∀ (a b : List Char), (a ++ b).dropWhile q =
      if (a.dropWhile q).isEmpty then b.dropWhile q else a.dropWhile q ++ b := by
  intro a b
  induction a with
  | nil => simp
  | cons c a' ih =>
    cases h : q c with
    | false => simp [List.dropWhile_cons, h]
    | true => simp [List.dropWhile_cons, h, ih]

theorem jsTrimEnd_decomp (s : List Char) : ∃ w, s = jsTrimEnd s ++ w := by
  refine ⟨(s.reverse.takeWhile jsWsChar).reverse, ?_⟩
  have h := congrArg List.reverse
    (List.takeWhile_append_dropWhile (p := jsWsChar) (l := s.reverse))
  rw [List.reverse_append, List.reverse_reverse] at h
  simp only [jsTrimEnd]
  exact h.symm

/-- The filter predicate `s => s.trim().startsWith('### 🔹')` of
src/services/compression.ts line 316, with the marker generalized. -/
def keepSeg (d p : List Char) : Bool := d.isPrefixOf (jsTrim p)

theorem keep_of_pfx {d p : List Char}
    (hh : ∃ ch r0, d = ch :: r0 ∧ jsWsChar ch = false)
    (hl : d.reverse.dropWhile jsWsChar = d.reverse)
    (hp : d.isPrefixOf p = true) : keepSeg d p = true := by
  obtain ⟨t, rfl⟩ := (pfx_iff d p).1 hp
  obtain ⟨ch, r0, hd, hw⟩ := hh
  have h1 : jsTrimStart (d ++ t) = d ++ t := by
    subst hd
    simp [jsTrimStart, List.dropWhile_cons, hw]
  simp only [keepSeg, jsTrim, h1, jsTrimEnd, List.reverse_append,
    dropWhile_append_split]
  by_cases he : (t.reverse.dropWhile jsWsChar).isEmpty
  · rw [if_pos he, hl, List.reverse_reverse]
    exact (pfx_iff d d).2 ⟨[], by simp⟩
  · rw [if_neg he, List.reverse_append, List.reverse_reverse]
    exact (pfx_iff _ _).2 ⟨(t.reverse.dropWhile jsWsChar).reverse, rfl⟩

theorem hasOcc_of_keep {d p : List Char} (h : keepSeg d p = true) : hasOcc d p = true := by
  simp only [keepSeg, jsTrim] at h
  obtain ⟨w, hw⟩ := jsTrimEnd_decomp (jsTrimStart p)
  have h2 : d.isPrefixOf (jsTrimStart p) = true := by
    obtain ⟨x, hx⟩ := (pfx_iff _ _).1 h
    rw [pfx_iff]
    exact ⟨x ++ w, by rw [hw, hx, List.append_assoc]⟩
  have h3 : hasOcc d (jsTrimStart p) = true := hasOcc_of_pfx h2
  have h4 : p = p.takeWhile jsWsChar ++ jsTrimStart p := by
    simp only [jsTrimStart]
    exact (List.takeWhile_append_dropWhile (p := jsWsChar) (l := p)).symm
  have h5 := hasOcc_append_left (p.takeWhile jsWsChar) h3
  rwa [← h4] at h5

theorem hasOcc_iff {d : List Char} (hne : d ≠ []) :
    ∀ l, hasOcc d l = true ↔ ∃ k, d.isPrefixOf (l.drop k) = true := by
  intro l
  induction l with
  | nil =>
    constructor
    · intro h
      exact absurd (by simpa [hasOcc, List.isEmpty_iff] using h) hne
    · rintro ⟨k, hk⟩
      rw [List.drop_nil, pfx_nil_false hne] at hk
      exact absurd hk (by simp)
  | cons c rest ih =>
    constructor
    · intro h
      rw [show hasOcc d (c :: rest) = (d.isPrefixOf (c :: rest) || hasOcc d rest) from rfl,
        Bool.or_eq_true] at h
      rcases h with h | h
      · exact ⟨0, by simpa using h⟩
      · obtain ⟨k, hk⟩ := ih.1 h
        exact ⟨k + 1, by simpa [List.drop_succ_cons] using hk⟩
    · rintro ⟨k, hk⟩
      show (d.isPrefixOf (c :: rest) || hasOcc d rest) = true
      rw [Bool.or_eq_true]
      cases k with
      | zero => exact Or.inl (by simpa using hk)
      | succ m =>
        rw [List.drop_succ_cons] at hk
        exact Or.inr (ih.2 ⟨m, hk⟩)

theorem hasOcc_leadOf {d : List Char} (hne : d ≠ []) (s : List Char) :
    hasOcc d (leadOf d s) = false := by
  by_contra hB
  rw [Bool.not_eq_false] at hB
  obtain ⟨k, hk⟩ := (hasOcc_iff hne _).1 hB
  have hklt : k < (leadOf d s).length := by
    by_contra hge
    rw [List.drop_eq_nil_of_le (by omega), pfx_nil_false hne] at hk
    exact absurd hk (by simp)
  obtain ⟨t, ht⟩ := leadOf_decomp d s
  have h2 := pfx_append_right t hk
  rw [← drop_append_le k (leadOf d s) t (le_of_lt hklt), ← ht] at h2
  exact absurd h2 (by simp [leadOf_sound d s k hklt])

/-- Model of `timelineText.split(/(?=### 🔹)/)` (line 316) with the marker
generalized: a zero-width-lookahead split cuts immediately before every
position at which `d` starts; JS produces no cut for the zero-width match at
position 0, which is what the non-empty-accumulator guard encodes. -/
def splitBeforeAux (d : List Char) : List Char → List Char → List (List Char)
  | acc, [] => [acc.reverse]
  | acc, c :: rest =>
    if d.isPrefixOf (c :: rest) && !acc.isEmpty then
      acc.reverse :: splitBeforeAux d [c] rest
    else
      splitBeforeAux d (c :: acc) rest

def splitBefore (d s : List Char) : List (List Char) := splitBeforeAux d [] s

/-- The split loses no text: flattening the pieces restores the input, so the
pieces appear in source order. -/
theorem flatten_splitBeforeAux (d : List Char) :
    ∀ s acc, (splitBeforeAux d acc s).flatten = acc.reverse ++ s := by
  intro s
  induction s with
  | nil => intro acc; simp [splitBeforeAux]
  | cons c rest ih =>
    intro acc
    by_cases h : (d.isPrefixOf (c :: rest) && !acc.isEmpty) = true
    · have hstep : splitBeforeAux d acc (c :: rest)
          = acc.reverse :: splitBeforeAux d [c] rest := by
        simp only [splitBeforeAux]
        rw [h]
        simp
      rw [hstep, List.flatten_cons, ih [c]]
      simp
    · have hf : (d.isPrefixOf (c :: rest) && !acc.isEmpty) = false := by
        revert h; cases d.isPrefixOf (c :: rest) && !acc.isEmpty <;> simp
      have hstep : splitBeforeAux d acc (c :: rest) = splitBeforeAux d (c :: acc) rest := by
        simp only [splitBeforeAux]
        rw [hf]
        simp
      rw [hstep, ih (c :: acc)]
      simp

theorem flatten_splitBefore (d s : List Char) : (splitBefore d s).flatten = s := by
  simpa using flatten_splitBeforeAux d s []

theorem filter_splitBeforeAux {d : List Char}
    (hh : ∃ ch r0, d = ch :: r0 ∧ jsWsChar ch = false)
    (hl : d.reverse.dropWhile jsWsChar = d.reverse)
    (hnb : noBorder d) :
    ∀ s acc, acc ≠ [] →
      ((splitBeforeAux d acc s).filter (keepSeg d)).length
        = (if keepSeg d (acc.reverse ++ leadOf d s) = true then 1 else 0) + countOcc d s := by
  intro s
  induction s with
  | nil =>
    intro acc hacc
    simp only [splitBeforeAux, leadOf, countOcc, List.append_nil, List.filter]
    cases hk : keepSeg d acc.reverse <;> simp [hk]
  | cons c rest ih =>
    intro acc hacc
    have hne : (!acc.isEmpty) = true := by
      cases acc with
      | nil => exact absurd rfl hacc
      | cons x xs => rfl
    by_cases hp : d.isPrefixOf (c :: rest) = true
    · have hcond : (d.isPrefixOf (c :: rest) && !acc.isEmpty) = true := by
        rw [hp, hne]; rfl
      have hkeep : keepSeg d (c :: leadOf d rest) = true :=
        keep_of_pfx hh hl (delim_pfx_lead hnb hp)
      have hstep : splitBeforeAux d acc (c :: rest)
          = acc.reverse :: splitBeforeAux d [c] rest := by
        simp only [splitBeforeAux]
        rw [hcond]
        simp
      have hlead : leadOf d (c :: rest) = [] := by
        simp only [leadOf]
        rw [hp]
        simp
      have hcnt : countOcc d (c :: rest) = 1 + countOcc d rest := by
        simp only [countOcc]
        rw [hp]
        simp
      have ihc2 : (List.filter (keepSeg d) (splitBeforeAux d [c] rest)).length
          = 1 + countOcc d rest := by
        rw [ih [c] (by simp)]
        simp only [List.reverse_cons, List.reverse_nil, List.nil_append,
          List.singleton_append, hkeep, if_true]
      rw [hstep, hlead, List.append_nil, hcnt, List.filter_cons]
      cases hk : keepSeg d acc.reverse with
      | false =>
        simp only [hk, Bool.false_eq_true, if_false]
        rw [ihc2]
        omega
      | true =>
        simp only [hk, if_true, List.length_cons]
        rw [ihc2]
        omega
    · have hpf : d.isPrefixOf (c :: rest) = false := by
        revert hp; cases d.isPrefixOf (c :: rest) <;> simp
      have hcond : (d.isPrefixOf (c :: rest) && !acc.isEmpty) = false := by
        rw [hpf]; rfl
      have hstep : splitBeforeAux d acc (c :: rest) = splitBeforeAux d (c :: acc) rest := by
        simp only [splitBeforeAux]
        rw [hcond]
        simp
      have hlead : leadOf d (c :: rest) = c :: leadOf d rest := by
        simp only [leadOf]
        rw [hpf]
        simp
      have hcnt : countOcc d (c :: rest) = countOcc d rest := by
        simp only [countOcc]
        rw [hpf]
        simp
      rw [hstep, ih (c :: acc) (by simp), hlead, hcnt]
      have hacc2 : (c :: acc).reverse ++ leadOf d rest
          = acc.reverse ++ (c :: leadOf d rest) := by
        simp
      rw [hacc2]

/-- Full counting theorem for the lookahead split: the number of pieces kept
by the `trim().startsWith(d)` filter is exactly the number of positions at
which `d` occurs; in particular any leading fragment before the first
occurrence is dropped. -/
theorem filter_splitBefore {d : List Char}
    (hh : ∃ ch r0, d = ch :: r0 ∧ jsWsChar ch = false)
    (hl : d.reverse.dropWhile jsWsChar = d.reverse)
    (hnb : noBorder d) (hne : d ≠ []) :
    ∀ s, ((splitBefore d s).filter (keepSeg d)).length = countOcc d s := by
  intro s
  cases s with
  | nil =>
    have hk : keepSeg d ([] : List Char) = false := by
      simp only [keepSeg]
      rw [show jsTrim ([] : List Char) = [] from rfl]
      exact pfx_nil_false hne
    simp [splitBefore, splitBeforeAux, List.filter, hk, countOcc]
  | cons c rest =>
    have h0 : splitBefore d (c :: rest) = splitBeforeAux d [c] rest := by
      simp only [splitBefore, splitBeforeAux]
      simp
    rw [h0, filter_splitBeforeAux hh hl hnb rest [c] (by simp)]
    have hshape : (([c] : List Char).reverse ++ leadOf d rest) = c :: leadOf d rest := by
      simp
    rw [hshape]
    by_cases hp : d.isPrefixOf (c :: rest) = true
    · have hkeep : keepSeg d (c :: leadOf d rest) = true :=
        keep_of_pfx hh hl (delim_pfx_lead hnb hp)
      have hcnt : countOcc d (c :: rest) = 1 + countOcc d rest := by
        simp only [countOcc]
        rw [hp]
        simp
      rw [hkeep, hcnt]
      simp
    · have hpf : d.isPrefixOf (c :: rest) = false := by
        revert hp; cases d.isPrefixOf (c :: rest) <;> simp
      have hkeep : keepSeg d (c :: leadOf d rest) = false := by
        by_contra hB
        rw [Bool.not_eq_false] at hB
        have hOcc := hasOcc_of_keep hB
        rw [show hasOcc d (c :: leadOf d rest)
            = (d.isPrefixOf (c :: leadOf d rest) || hasOcc d (leadOf d rest)) from rfl,
          Bool.or_eq_true] at hOcc
        rcases hOcc with h1 | h1
        · obtain ⟨t, ht⟩ := leadOf_decomp d rest
          have h2 := pfx_append_right t h1
          rw [List.cons_append, ← ht] at h2
          rw [h2] at hpf
          exact absurd hpf (by simp)
        · rw [hasOcc_leadOf hne rest] at h1
          exact absurd h1 (by simp)
      have hcnt : countOcc d (c :: rest) = countOcc d rest := by
        simp only [countOcc]
        rw [hpf]
        simp
      rw [hkeep, hcnt]
      simp

/-! The response parser `parsedContent` (src/services/compression.ts lines
305-373).  The emoji in the template markers are written out by code point so
the embedding matches the source bytes exactly. -/

/-- U+FE0F VARIATION SELECTOR-16, part of several markers in the source. -/
def vs16 : Char := Char.ofNat 0xFE0F

/-- The literal `## 🎬 Executive Summary` (line 307); 🎬 is U+1F3AC. -/
def execHeader : List Char :=
  "## ".toList ++ [Char.ofNat 0x1F3AC] ++ " Executive Summary".toList

/-- The lookahead literal `## ⏱️` of line 307; ⏱️ is U+23F1 U+FE0F. -/
def execStop : List Char := "## ".toList ++ [Char.ofNat 0x23F1, vs16]

/-- The literal `## ⏱️ Detailed Chronological Analysis` (line 310). -/
def timelineHeader : List Char :=
  "## ".toList ++ [Char.ofNat 0x23F1, vs16] ++ " Detailed Chronological Analysis".toList

/-- The lookahead literal `## 🗝️` of line 310; 🗝️ is U+1F5DD U+FE0F. -/
def timelineStop : List Char := "## ".toList ++ [Char.ofNat 0x1F5DD, vs16]

/-- The segment delimiter `### 🔹` (line 316); 🔹 is U+1F539 (no variation
selector in the source bytes). -/
def segMarker : List Char := "### ".toList ++ [Char.ofNat 0x1F539]

/-- The field label `**🗣️ Speaker**:` (line 328); 🗣️ is U+1F5E3 U+FE0F. -/
def speakerLabel : List Char :=
  "**".toList ++ [Char.ofNat 0x1F5E3, vs16] ++ " Speaker**:".toList

/-- The field label `**🎭 Sentiment**:` (line 329); 🎭 is U+1F3AD. -/
def sentimentLabel : List Char :=
  "**".toList ++ [Char.ofNat 0x1F3AD] ++ " Sentiment**:".toList

/-- The field label `**💬 Dialogue**:` (line 330); 💬 is U+1F4AC. -/
def dialogueLabel : List Char :=
  "**".toList ++ [Char.ofNat 0x1F4AC] ++ " Dialogue**:".toList

/-- The field label `**👁️ Visual Context**:` (line 331); 👁️ is U+1F441 U+FE0F. -/
def visualLabel : List Char :=
  "**".toList ++ [Char.ofNat 0x1F441, vs16] ++ " Visual Context**:".toList

/-- First accepted takeaways header `## 🗝️ Critical Analysis & Takeaways`
(line 346). -/
def takeawaysHeader1 : List Char :=
  "## ".toList ++ [Char.ofNat 0x1F5DD, vs16] ++ " Critical Analysis & Takeaways".toList

/-- Second accepted takeaways header `## 🗝️ Key Takeaways` (line 346). -/
def takeawaysHeader2 : List Char :=
  "## ".toList ++ [Char.ofNat 0x1F5DD, vs16] ++ " Key Takeaways".toList

/-- Scan for the first occurrence of the literal `pat` and return the suffix
just after it (`none` when `pat` never occurs): the leftmost-match rule for
a JS regex that begins with the literal `pat`. -/
def dropThrough (pat : List Char) : List Char → Option (List Char)
  | [] => if pat.isEmpty then some [] else none
  | c :: rest =>
    if pat.isPrefixOf (c :: rest) then some ((c :: rest).drop pat.length)
    else dropThrough pat rest

theorem dropThrough_none_iff (pat : List Char) :
    ∀ s, dropThrough pat s = none ↔ hasOcc pat s = false := by
  intro s
  induction s with
  | nil =>
    simp only [dropThrough, hasOcc]
    cases h : pat.isEmpty <;> simp [h]
  | cons c rest ih =>
    simp only [dropThrough]
    rw [show hasOcc pat (c :: rest) = (pat.isPrefixOf (c :: rest) || hasOcc pat rest) from rfl]
    cases h : pat.isPrefixOf (c :: rest) <;> simp [h, ih]

theorem dropThrough_decomp (pat : List Char) :
    ∀ s r, dropThrough pat s = some r → ∃ u, s = u ++ r := by
  intro s
  induction s with
  | nil =>
    intro r h
    simp only [dropThrough] at h
    cases hp : pat.isEmpty
    · rw [hp] at h
      simp at h
    · rw [hp] at h
      simp only [if_true] at h
      injection h with h2
      exact ⟨[], by rw [← h2]; rfl⟩
  | cons c rest ih =>
    intro r h
    simp only [dropThrough] at h
    by_cases hp : pat.isPrefixOf (c :: rest) = true
    · rw [if_pos hp] at h
      injection h with h2
      obtain ⟨t, ht⟩ := (pfx_iff _ _).1 hp
      have hdrop : (c :: rest).drop pat.length = t := by
        rw [ht, drop_append_le pat.length pat t (le_refl _), List.drop_length]
        rfl
      exact ⟨pat, by rw [ht, ← h2, hdrop]⟩
    · rw [if_neg hp] at h
      obtain ⟨u, hu⟩ := ih r h
      exact ⟨c :: u, by rw [List.cons_append, ← hu]⟩

/-- Terminator test for the lookahead `(?=\n\s*\*|\n###|$)` of the four
field regexes (lines 328-331): true at end of input, at a `\n` whose next
non-whitespace character is `*`, and at a `\n` directly followed by `###`. -/
def fieldTermB (s : List Char) : Bool :=
  match s with
  | [] => true
  | c :: rest =>
    c == '\n' &&
      (((rest.dropWhile jsWsChar).take 1 == ['*']) || (rest.take 3 == ['#', '#', '#']))

/-- The lazy capture `([\s\S]*?)`: the shortest prefix ending where
`fieldTermB` first holds. -/
def captureField : List Char → List Char
  | [] => []
  | c :: rest => if fieldTermB (c :: rest) then [] else c :: captureField rest

/-- Model of `seg.match(/LABEL([\s\S]*?)(?=\n\s*\*|\n###|$)/)` capture 1:
the regex starts with the literal label, so the leftmost match starts at the
first label occurrence, and the `$` alternative makes the lookahead always
eventually succeed, so a match exists iff the label occurs. -/
def matchField (label seg : List Char) : Option (List Char) :=
  (dropThrough label seg).map captureField

/-- Suffix after the first `ch`, or `none`. -/
def afterChar (ch : Char) : List Char → Option (List Char)
  | [] => none
  | c :: rest => if c == ch then some rest else afterChar ch rest

/-- Prefix before the first `ch`, or `none` when `ch` is absent (the lazy
`(.*?)` capture terminated by the literal `ch`). -/
def takeBeforeChar (ch : Char) : List Char → Option (List Char)
  | [] => none
  | c :: rest => if c == ch then some [] else (takeBeforeChar ch rest).map (c :: ·)

/-- Model of `header.match(/\[(.*?)\]/)` capture 1 (line 324): the text
between the first `[` and the first `]` after it (if the first `[` has no
closing `]`, no later start position can have one either, so the whole
match fails).  The header is a single line, so `.` never meets a newline. -/
def matchBracketTime (line : List Char) : Option (List Char) :=
  (afterChar '[' line).bind (takeBeforeChar ']')

/-- Model of `header.match(/\]\s*-\s*(.*)/)` capture 1 (line 325): scan for
the first `]` whose next non-whitespace character is `-`; the capture is
the rest of the line after that `-` and the following whitespace run. -/
def matchCloseDash : List Char → Option (List Char)
  | [] => none
  | c :: rest =>
    if c == ']' then
      match rest.dropWhile jsWsChar with
      | '-' :: r2 => some (r2.dropWhile jsWsChar)
      | _ => matchCloseDash rest
    else matchCloseDash rest

/-- The `TimelineSegmentData` record (src/services/compression.ts
lines 75-83). -/
structure TimelineSegmentData where
  raw : List Char
  timestamp : List Char
  title : List Char
  speaker : List Char
  sentiment : List Char
  dialogue : List Char
  visualContext : List Char
deriving DecidableEq

/-- The per-block parser: body of `rawSegments.map(seg => ...)` (lines
318-342), including every documented default. -/
def parseSegment (seg : List Char) : TimelineSegmentData :=
  let lines := jsSplitChar '\n' (jsTrim seg)
  let header := lines.headD []
  { raw := seg
    timestamp := (matchBracketTime header).getD ("00:00".toList)
    title := ((matchCloseDash header).map jsTrim).getD ("Event Segment".toList)
    speaker := ((matchField speakerLabel seg).map jsTrim).getD ("Unknown Speaker".toList)
    sentiment := ((matchField sentimentLabel seg).map jsTrim).getD ("Neutral".toList)
    dialogue := ((matchField dialogueLabel seg).map jsTrim).getD ("No dialogue detected.".toList)
    visualContext := ((matchField visualLabel seg).map jsTrim).getD [] }

/-- Model of a section regex `HEADER([\s\S]*?)(?=STOP|$)` capture 1:
everything after the first `HEADER` up to the first later `STOP` (or the
end of the document). -/
def matchSection (header stop doc : List Char) : Option (List Char) :=
  (dropThrough header doc).map (leadOf stop)

/-- `executive` of line 308: `executiveMatch ? executiveMatch[1].trim() : ''`. -/
def executiveOf (doc : List Char) : List Char :=
  ((matchSection execHeader execStop doc).map jsTrim).getD []

/-- `timelineMatch[1]` of line 314 (the empty string when the header is
absent; in that case the code leaves `timelineSegments` empty, exactly as
parsing the empty section text does). -/
def timelineTextOf (doc : List Char) : List Char :=
  (matchSection timelineHeader timelineStop doc).getD []

/-- `timelineSegments` of lines 311-343: split the section on the segment
lookahead, keep the pieces whose trimmed text starts with the marker, and
parse each block. -/
def timelineSegmentsOf (doc : List Char) : List TimelineSegmentData :=
  ((splitBefore segMarker (timelineTextOf doc)).filter (keepSeg segMarker)).map parseSegment

/-- `rawTakeaways` of lines 346-349: capture `([\s\S]*)` (to the end) after
the first recognized of the two accepted headers, trimmed; `''` when
neither occurs. -/
def rawTakeawaysOf (doc : List Char) : List Char :=
  (((dropThrough takeawaysHeader1 doc <|> dropThrough takeawaysHeader2 doc)).map jsTrim).getD []

/-- The `InsightData` record (lines 85-88). -/
structure InsightData where
  title : List Char
  content : List Char
deriving DecidableEq

/-- The bullet-line filter of line 353:
`line.trim().startsWith('*') || line.trim().startsWith('-')`. -/
def isBulletLine (line : List Char) : Bool :=
  ((jsTrim line).take 1 == ['*']) || ((jsTrim line).take 1 == ['-'])

/-- `items` of line 353. -/
def bulletItems (t : List Char) : List (List Char) :=
  (jsSplitChar '\n' t).filter isBulletLine

/-- `item.replace(/^[*-\s]+/, '').trim()` of line 356; in a non-unicode JS
regex the class `[*-\s]` is the union of `*`, `-` and whitespace, so the
whole leading run of asterisks, hyphens and whitespace is removed — note
that this also removes the opening `**` of a bullet-initial bold span. -/
def cleanBullet (item : List Char) : List Char :=
  jsTrim (item.dropWhile (fun c => c == '*' || c == '-' || jsWsChar c))

/-- Split at the first occurrence of `pat`: the text before it and the
suffix after it. -/
def splitAtOcc (pat : List Char) : List Char → Option (List Char × List Char)
  | [] => if pat.isEmpty then some ([], []) else none
  | c :: rest =>
    if pat.isPrefixOf (c :: rest) then some ([], (c :: rest).drop pat.length)
    else (splitAtOcc pat rest).map (fun pr => (c :: pr.1, pr.2))

/-- Model of `clean.match(/\*\*(.*?)\*\*:?\s*(.*)/)` (line 358): the
leftmost match starts at the first `**`; the lazy group captures up to the
next `**`; an optional `:` and the greedy `\s*` are skipped and the second
group captures the remainder of the (single-line) input.  `none` when no
second `**` follows the first one — in that case no later start position
can succeed either, since any occurrence of `**` at or after position
`first+2` would already have served as the closing pair. -/
def matchBoldTitle (clean : List Char) : Option (List Char × List Char) :=
  (dropThrough ['*', '*'] clean).bind (fun afterOpen =>
    (splitAtOcc ['*', '*'] afterOpen).map (fun pr =>
      let rest := match pr.2 with
        | ':' :: r => r
        | r => r
      (pr.1, rest.dropWhile jsWsChar)))

/-- Body of `items.map(item => ...)` (lines 354-363). -/
def mkInsight (item : List Char) : InsightData :=
  let clean := cleanBullet item
  match matchBoldTitle clean with
  | some pr => { title := pr.1, content := pr.2 }
  | none => { title := "Observation".toList, content := clean }

/-- `insights` of lines 348-364 (computed only when `rawTakeaways` is a
non-empty string). -/
def insightsOf (doc : List Char) : List InsightData :=
  if (rawTakeawaysOf doc).isEmpty then []
  else (bulletItems (rawTakeawaysOf doc)).map mkInsight

/-- The anonymous parsed-structure record returned at line 368. -/
structure ParsedContent where
  executive : List Char
  timelineSegments : List TimelineSegmentData
  insights : List InsightData
  rawTakeaways : List Char
deriving DecidableEq

/-- The `parsedContent` memo (lines 305-373): `none` models the `null`
sentinel returned when both the executive summary and the timeline come out
empty.  (The surrounding `try/catch` can never fire in this model: every
branch is a total function.) -/
def parsedContent (doc : List Char) : Option ParsedContent :=
  let executive := executiveOf doc
  let segs := timelineSegmentsOf doc
  if executive.isEmpty && segs.isEmpty then none
  else some ⟨executive, segs, insightsOf doc, rawTakeawaysOf doc⟩

theorem segMarker_props :
    segMarker ≠ [] ∧ (∃ ch r0, segMarker = ch :: r0 ∧ jsWsChar ch = false) ∧
      segMarker.reverse.dropWhile jsWsChar = segMarker.reverse := by
  refine ⟨by decide, ⟨'#', "## ".toList ++ [Char.ofNat 0x1F539], by decide, by decide⟩, by decide⟩

theorem segMarker_noBorder : noBorder segMarker := by
  intro k h1 h2
  have h5 : segMarker.length = 5 := by decide
  rw [h5] at h2
  interval_cases k <;> decide

/-- Claim C2: for every document the number of parsed timeline entries
equals the number of segment-delimiter occurrences in the extracted
chronological-analysis section (one entry per well-formed block); the split
pieces flatten back to the section text, so entries appear in source order;
and the entries are exactly the kept blocks in order, so the leading
fragment before the first delimiter contributes no segment. -/
theorem C2_segment_count (doc : List Char) :
    (timelineSegmentsOf doc).length = countOcc segMarker (timelineTextOf doc) ∧
    (splitBefore segMarker (timelineTextOf doc)).flatten = timelineTextOf doc ∧
    timelineSegmentsOf doc
      = ((splitBefore segMarker (timelineTextOf doc)).filter (keepSeg segMarker)).map
          parseSegment := by
  obtain ⟨hne, hh, hl⟩ := segMarker_props
  refine ⟨?_, flatten_splitBefore _ _, rfl⟩
  rw [timelineSegmentsOf, List.length_map]
  exact filter_splitBefore hh hl segMarker_noBorder hne (timelineTextOf doc)

/-- Claim C3: each labeled sub-field absent from a block is replaced by its
documented default ("Unknown Speaker", "Neutral", "No dialogue detected.",
empty visual context), and each present sub-field parses to its authored
text — the trimmed capture running from after the label to the next field
bullet, sub-header or end of block; the per-block parser is a total
function, so a missing sub-field can never make it fail. -/
theorem C3_field_defaults (seg : List Char) :
    (hasOcc speakerLabel seg = false →
      (parseSegment seg).speaker = "Unknown Speaker".toList) ∧
    (hasOcc sentimentLabel seg = false →
      (parseSegment seg).sentiment = "Neutral".toList) ∧
    (hasOcc dialogueLabel seg = false →
      (parseSegment seg).dialogue = "No dialogue detected.".toList) ∧
    (hasOcc visualLabel seg = false → (parseSegment seg).visualContext = []) ∧
    (∀ r, dropThrough speakerLabel seg = some r →
      (parseSegment seg).speaker = jsTrim (captureField r)) ∧
    (∀ r, dropThrough sentimentLabel seg = some r →
      (parseSegment seg).sentiment = jsTrim (captureField r)) ∧
    (∀ r, dropThrough dialogueLabel seg = some r →
      (parseSegment seg).dialogue = jsTrim (captureField r)) ∧
    (∀ r, dropThrough visualLabel seg = some r →
      (parseSegment seg).visualContext = jsTrim (captureField r)) := by
  refine ⟨?_, ?_, ?_, ?_, ?_, ?_, ?_, ?_⟩
  · intro h
    simp [parseSegment, matchField, (dropThrough_none_iff _ _).2 h]
  · intro h
    simp [parseSegment, matchField, (dropThrough_none_iff _ _).2 h]
  · intro h
    simp [parseSegment, matchField, (dropThrough_none_iff _ _).2 h]
  · intro h
    simp [parseSegment, matchField, (dropThrough_none_iff _ _).2 h]
  · intro r h
    simp [parseSegment, matchField, h]
  · intro r h
    simp [parseSegment, matchField, h]
  · intro r h
    simp [parseSegment, matchField, h]
  · intro r h
    simp [parseSegment, matchField, h]

/-- A concrete segment block whose `Sentiment` field is absent. -/
def exampleSeg : List Char :=
  segMarker ++ " [00:10] - Intro\n*   ".toList ++ speakerLabel ++ " Narrator\n*   ".toList
    ++ dialogueLabel ++ " Hello there.".toList

/-- Claim C3, witness: on `exampleSeg` the absent sentiment falls back to
"Neutral" while the authored speaker text parses through. -/
theorem C3_field_defaults_witness :
    (parseSegment exampleSeg).sentiment = "Neutral".toList ∧
      (parseSegment exampleSeg).speaker = "Narrator".toList := by
  constructor
  · exact (C3_field_defaults exampleSeg).2.1 (by decide)
  · have h := (C3_field_defaults exampleSeg).2.2.2.2.1
      (" Narrator\n*   ".toList ++ dialogueLabel ++ " Hello there.".toList) (by decide)
    rw [h]
    decide

/-- Occurrence transfer: a pattern occurring in an extracted section occurs
in the whole document (the section text is a contiguous piece of it). -/
theorem hasOcc_of_section {pat header stop doc tl : List Char}
    (hm : matchSection header stop doc = some tl)
    (hB : hasOcc pat tl = true) : hasOcc pat doc = true := by
  simp only [matchSection] at hm
  cases hd : dropThrough header doc with
  | none =>
    rw [hd] at hm
    simp at hm
  | some r =>
    rw [hd] at hm
    simp only [Option.map_some'] at hm
    injection hm with hm2
    obtain ⟨u, hu⟩ := dropThrough_decomp header doc r hd
    obtain ⟨t, ht⟩ := leadOf_decomp stop r
    have h1 : hasOcc pat r = true := by
      rw [ht, hm2]
      exact hasOcc_append_right t tl hB
    rw [hu]
    exact hasOcc_append_left u h1

/-- Claim C4: when the document contains neither the executive-summary
header nor any segment marker, the parser returns the `null` sentinel
(`none`) rather than an all-empty structure; and the model is a total
function, so no input raises. -/
theorem C4_parse_sentinel (doc : List Char)
    (hE : hasOcc execHeader doc = false) (hS : hasOcc segMarker doc = false) :
    parsedContent doc = none := by
  obtain ⟨hne, hh, hl⟩ := segMarker_props
  have hexec : executiveOf doc = [] := by
    simp [executiveOf, matchSection, (dropThrough_none_iff execHeader doc).2 hE]
  have hocc_tl : hasOcc segMarker (timelineTextOf doc) = false := by
    cases hm : matchSection timelineHeader timelineStop doc with
    | none => simp [timelineTextOf, hm, hasOcc, segMarker]
    | some tl =>
      simp only [timelineTextOf, hm, Option.getD_some]
      by_contra hB
      rw [Bool.not_eq_false] at hB
      rw [hasOcc_of_section hm hB] at hS
      exact absurd hS (by simp)
  have hsegs : timelineSegmentsOf doc = [] := by
    have hcnt : countOcc segMarker (timelineTextOf doc) = 0 :=
      countOcc_eq_zero_of_not_occ hocc_tl
    have hlen := filter_splitBefore hh hl segMarker_noBorder hne (timelineTextOf doc)
    rw [hcnt] at hlen
    have hfe : (splitBefore segMarker (timelineTextOf doc)).filter (keepSeg segMarker) = [] :=
      List.length_eq_zero.1 hlen
    rw [timelineSegmentsOf, hfe]
    rfl
  simp [parsedContent, hexec, hsegs]

/-- Claim C4, witness: a document with none of the recognized markers
parses to the sentinel. -/
theorem C4_parse_sentinel_witness : parsedContent ("hello world".toList) = none :=
  C4_parse_sentinel ("hello world".toList) (by decide) (by decide)

/-- Claim C9, counterexample: the claim says a bullet matching the
`**Title**: content` pattern yields the bolded title and remaining content,
and that a bullet without the pattern yields an Observation wrapping the
full bullet text.  On the canonical bullet `* **Speed**: fast` the cleanup
`replace(/^[*-\s]+/, '')` strips the whole leading run of asterisks,
hyphens and whitespace — including the opening `**` of the bold span — so
the bold regex finds no `**…**` pair and the code yields
`{ title: "Observation", content: "Speed**: fast" }`: neither the
`{Speed, fast}` extraction nor an Observation of the full bullet text. -/
theorem C9_counterexample :
    mkInsight ("* **Speed**: fast".toList)
        = ⟨"Observation".toList, "Speed**: fast".toList⟩ ∧
      mkInsight ("* **Speed**: fast".toList) ≠ ⟨"Speed".toList, "fast".toList⟩ ∧
      ("Speed**: fast".toList : List Char) ≠ "* **Speed**: fast".toList := by
  refine ⟨by decide, by decide, by decide⟩

/-- Claim C9, amended: the takeaways section is recognized under either of
the two accepted header labels (preferring the first), its body is split
into bullet lines, and per bullet the leading run of `*`, `-` and
whitespace is stripped (removing the bullet marker, and with it the opening
`**` of a bullet-initial bold span) and trimmed; if the cleaned text still
contains a `**Title**` span, the bullet yields that title with the content
following the span (after an optional `:` and whitespace), otherwise it
yields `{ title: "Observation", content: <cleaned bullet text> }`. -/
theorem C9_takeaways (doc : List Char) :
    (∀ r, dropThrough takeawaysHeader1 doc = some r → rawTakeawaysOf doc = jsTrim r) ∧
    (dropThrough takeawaysHeader1 doc = none →
      ∀ r, dropThrough takeawaysHeader2 doc = some r → rawTakeawaysOf doc = jsTrim r) ∧
    (hasOcc takeawaysHeader1 doc = false → hasOcc takeawaysHeader2 doc = false →
      rawTakeawaysOf doc = [] ∧ insightsOf doc = []) ∧
    (insightsOf doc = if (rawTakeawaysOf doc).isEmpty then []
      else (bulletItems (rawTakeawaysOf doc)).map mkInsight) ∧
    (bulletItems (rawTakeawaysOf doc)
      = (jsSplitChar '\n' (rawTakeawaysOf doc)).filter isBulletLine) ∧
    (∀ item, matchBoldTitle (cleanBullet item) = none →
      mkInsight item = ⟨"Observation".toList, cleanBullet item⟩) ∧
    (∀ item t c, matchBoldTitle (cleanBullet item) = some (t, c) →
      mkInsight item = ⟨t, c⟩) := by
  refine ⟨?_, ?_, ?_, rfl, rfl, ?_, ?_⟩
  · intro r h
    simp [rawTakeawaysOf, h]
  · intro h1 r h2
    simp [rawTakeawaysOf, h1, h2]
  · intro h1 h2
    have d1 := (dropThrough_none_iff takeawaysHeader1 doc).2 h1
    have d2 := (dropThrough_none_iff takeawaysHeader2 doc).2 h2
    have hr : rawTakeawaysOf doc = [] := by simp [rawTakeawaysOf, d1, d2]
    exact ⟨hr, by simp [insightsOf, hr]⟩
  · intro item h
    simp [mkInsight, h]
  · intro item t c h
    simp [mkInsight, h]

/-- A concrete takeaways document using the second accepted header. -/
def exampleTakeaways : List Char :=
  takeawaysHeader2 ++ "\n* plain note\n* note **Speed**: fast".toList

/-- Claim C9, witness for the amended theorem: the second accepted header is
recognized, a pattern-free bullet becomes an Observation of its cleaned
text, and a bullet whose bold span starts after other text yields the
bolded title and remaining content. -/
theorem C9_takeaways_witness :
    rawTakeawaysOf exampleTakeaways = jsTrim ("\n* plain note\n* note **Speed**: fast".toList) ∧
      mkInsight ("* plain note".toList)
        = ⟨"Observation".toList, cleanBullet ("* plain note".toList)⟩ ∧
      mkInsight ("* note **Speed**: fast".toList) = ⟨"Speed".toList, "fast".toList⟩ := by
  refine ⟨?_, ?_, ?_⟩
  · exact (C9_takeaways exampleTakeaways).2.1 (by decide) _ (by decide)
  · exact (C9_takeaways exampleTakeaways).2.2.2.2.2.1 ("* plain note".toList) (by decide)
  · exact (C9_takeaways exampleTakeaways).2.2.2.2.2.2 ("* note **Speed**: fast".toList)
      ("Speed".toList) ("fast".toList) (by decide)

/-! The frame extractor `extractFrame` (src/services/compression.ts lines
118-168).  The promise executor installs four callbacks — `onloadedmetadata`,
`onseeked`, `onerror` and the 4000 ms safety timeout — and the run of the
extractor is the fold of the handler bodies over the sequence of events the
browser delivers.  `resolved = none` is a still-pending promise; resolving
is first-call-wins, exactly as for a JS promise. -/

/-- Environment facts fixed for one extraction: the video duration (read
when metadata loads), whether `canvas.getContext('2d')` returns a context,
and whether `canvas.toDataURL` succeeds. -/
structure ExtEnv where
  duration : Rat
  ctxOk : Bool
  renderOk : Bool

/-- A captured still image: `canvas.toDataURL('image/jpeg', 0.85)` of the
frame shown at `time`. -/
structure JpegFrame where
  time : Rat
  quality : Rat
deriving DecidableEq

/-- The events the browser can deliver to the executor's callbacks. -/
inductive ExtEvent
  | metadata
  | seeked
  | errorEv
  | timerFire
deriving DecidableEq

/-- The mutable state of one extraction run. `resolved`: `none` while the
promise is pending, `some v` once resolved with `v` (itself `none` for the
`null` resolution). `released` records whether the off-screen video element
was torn down (`video.src = ""; video.remove()`). -/
structure ExtState where
  resolved : Option (Option JpegFrame)
  timerCleared : Bool
  timerFired : Bool
  released : Bool
  seekTarget : Option Rat
deriving DecidableEq

def initExtState : ExtState := ⟨none, false, false, false, none⟩

/-- `min(time, video.duration - 0.1)` of line 156. -/
def clampTime (env : ExtEnv) (t : Rat) : Rat := min t (env.duration - 1 / 10)

/-- First-call-wins resolution, as for a JS promise. -/
def resolveWith (s : ExtState) (v : Option JpegFrame) : ExtState :=
  { s with resolved := some (s.resolved.getD v) }

/-- One callback invocation, transcribing the four handlers:
`onloadedmetadata` (lines 154-158) clamps and sets the seek target;
`onseeked` (lines 131-152) draws the frame and resolves with the JPEG data
URL on success, resolves `null` when the context is missing or `toDataURL`
throws, and in all three branches runs the cleanup (`video.src = "";
video.remove()`); it calls `clearTimeout` only on the success path.
`onerror` (lines 162-166) clears the timer and resolves `null` without any
cleanup.  The timeout callback (lines 127-129) fires only if not cleared
and not already fired, and resolves `null`, also without cleanup. -/
def extractStep (env : ExtEnv) (t : Rat) (s : ExtState) : ExtEvent → ExtState
  | ExtEvent.metadata =>
    ⟨s.resolved, s.timerCleared, s.timerFired, s.released, some (clampTime env t)⟩
  | ExtEvent.seeked =>
    if env.ctxOk then
      if env.renderOk then
        { resolveWith s (some ⟨s.seekTarget.getD 0, 85 / 100⟩) with
            timerCleared := true, released := true }
      else
        { resolveWith s none with released := true }
    else
      { resolveWith s none with released := true }
  | ExtEvent.errorEv => { resolveWith s none with timerCleared := true }
  | ExtEvent.timerFire =>
    if s.timerCleared || s.timerFired then s
    else { resolveWith s none with timerFired := true }

/-- A whole run of `extractFrame(videoUrl, t)` under the event sequence
`events`. -/
def runExtract (env : ExtEnv) (t : Rat) (events : List ExtEvent) : ExtState :=
  events.foldl (extractStep env t) initExtState

/-- Browser ordering fact assumed of real traces: `seeked` fires only after
`loadedmetadata` (a seek can only be initiated by the metadata handler). -/
def seekedAfterMeta : List ExtEvent → Bool
  | [] => true
  | ExtEvent.metadata :: _ => true
  | ExtEvent.seeked :: _ => false
  | _ :: rest => seekedAfterMeta rest

/-- Invariants of one extraction run: a cleared or fired timer implies the
promise is already resolved; any captured image shows the clamped seek
offset at JPEG quality 0.85; the seek target is unset or clamped. -/
def ExtInv (env : ExtEnv) (t : Rat) (s : ExtState) : Prop :=
  (s.timerCleared = true → s.resolved ≠ none) ∧
  (s.timerFired = true → s.resolved ≠ none) ∧
  (∀ img, s.resolved = some (some img) →
    img.time = clampTime env t ∧ img.quality = 85 / 100) ∧
  (s.seekTarget = none ∨ s.seekTarget = some (clampTime env t))

theorem extract_aux (env : ExtEnv) (t : Rat) :
    ∀ (events : List ExtEvent) (s : ExtState), ExtInv env t s →
      (s.seekTarget = none → seekedAfterMeta events = true) →
      ExtInv env t (events.foldl (extractStep env t) s) ∧
      (s.resolved ≠ none → (events.foldl (extractStep env t) s).resolved ≠ none) ∧
      (ExtEvent.timerFire ∈ events →
        (events.foldl (extractStep env t) s).resolved ≠ none) := by
  intro events
  induction events with
  | nil =>
    intro s hInv _
    exact ⟨hInv, fun h => h, by intro h; simp at h⟩
  | cons e rest ih =>
    intro s hInv hvalid
    obtain ⟨h1, h2, h3, h4⟩ := hInv
    rw [List.foldl_cons]
    have hstepInv : ExtInv env t (extractStep env t s e) := by
      cases e with
      | metadata =>
        refine ⟨?_, ?_, ?_, Or.inr rfl⟩ <;>
          simpa [extractStep] using fun h => by simp_all [extractStep]
      | seeked =>
        rcases h4 with h4 | h4
        · exfalso
          have := hvalid h4
          simp [seekedAfterMeta] at this
        · simp only [extractStep]
          by_cases hc : env.ctxOk = true
          · by_cases hr : env.renderOk = true
            · rw [if_pos hc, if_pos hr]
              refine ⟨fun _ => by simp [resolveWith], fun hf => by simp [resolveWith], ?_, ?_⟩
              · intro img him
                simp only [resolveWith] at him
                injection him with him2
                cases hres : s.resolved with
                | some v =>
                  rw [hres] at him2
                  simp at him2
                  exact h3 img (by rw [hres, him2])
                | none =>
                  rw [hres] at him2
                  simp at him2
                  rw [← him2]
                  simp [h4]
              · simp [resolveWith, h4]
            · rw [if_pos hc, if_neg hr]
              refine ⟨fun _ => by simp [resolveWith], fun _ => by simp [resolveWith], ?_, ?_⟩
              · intro img him
                simp only [resolveWith] at him
                injection him with him2
                cases hres : s.resolved with
                | some v =>
                  rw [hres] at him2
                  simp at him2
                  exact h3 img (by rw [hres, him2])
                | none =>
                  rw [hres] at him2
                  simp at him2
              · simp [resolveWith, h4]
          · rw [if_neg hc]
            refine ⟨fun _ => by simp [resolveWith], fun _ => by simp [resolveWith], ?_, ?_⟩
            · intro img him
              simp only [resolveWith] at him
              injection him with him2
              cases hres : s.resolved with
              | some v =>
                rw [hres] at him2
                simp at him2
                exact h3 img (by rw [hres, him2])
              | none =>
                rw [hres] at him2
                simp at him2
            · simp [resolveWith, h4]
      | errorEv =>
        simp only [extractStep]
        refine ⟨fun _ => by simp [resolveWith], fun hf => by simp [resolveWith], ?_, ?_⟩
        · intro img him
          simp only [resolveWith] at him
          injection him with him2
          cases hres : s.resolved with
          | some v =>
            rw [hres] at him2
            simp at him2
            exact h3 img (by rw [hres, him2])
          | none =>
            rw [hres] at him2
            simp at him2
        · simpa [resolveWith] using h4
      | timerFire =>
        simp only [extractStep]
        by_cases hg : (s.timerCleared || s.timerFired) = true
        · rw [if_pos hg]
          exact ⟨h1, h2, h3, h4⟩
        · rw [if_neg hg]
          refine ⟨fun _ => by simp [resolveWith], fun _ => by simp [resolveWith], ?_, ?_⟩
          · intro img him
            simp only [resolveWith] at him
            injection him with him2
            cases hres : s.resolved with
            | some v =>
              rw [hres] at him2
              simp at him2
              exact h3 img (by rw [hres, him2])
            | none =>
              rw [hres] at him2
              simp at him2
          · simpa [resolveWith] using h4
    have hstepMono : s.resolved ≠ none → (extractStep env t s e).resolved ≠ none := by
      intro hr
      cases e with
      | metadata => simpa [extractStep] using hr
      | seeked =>
        simp only [extractStep]
        by_cases hc : env.ctxOk = true
        · by_cases hrk : env.renderOk = true
          · rw [if_pos hc, if_pos hrk]; simp [resolveWith]
          · rw [if_pos hc, if_neg hrk]; simp [resolveWith]
        · rw [if_neg hc]; simp [resolveWith]
      | errorEv => simp [extractStep, resolveWith]
      | timerFire =>
        simp only [extractStep]
        by_cases hg : (s.timerCleared || s.timerFired) = true
        · rw [if_pos hg]; exact hr
        · rw [if_neg hg]; simp [resolveWith]
    have hstepValid : (extractStep env t s e).seekTarget = none →
        seekedAfterMeta rest = true := by
      intro hst
      cases e with
      | metadata => simp [extractStep] at hst
      | seeked =>
        rcases (hstepInv.2.2.2) with h | h
        · have hsv : s.seekTarget = none := by
            cases e2 : s.seekTarget with
            | none => rfl
            | some v =>
              exfalso
              revert hst
              simp only [extractStep]
              by_cases hc : env.ctxOk = true
              · by_cases hrk : env.renderOk = true
                · rw [if_pos hc, if_pos hrk]; simp [resolveWith, e2]
                · rw [if_pos hc, if_neg hrk]; simp [resolveWith, e2]
              · rw [if_neg hc]; simp [resolveWith, e2]
          have := hvalid hsv
          simp [seekedAfterMeta] at this
        · rcases h4 with h4 | h4
          · have := hvalid h4
            simp [seekedAfterMeta] at this
          · exfalso
            revert hst
            simp only [extractStep]
            by_cases hc : env.ctxOk = true
            · by_cases hrk : env.renderOk = true
              · rw [if_pos hc, if_pos hrk]; simp [resolveWith, h4]
              · rw [if_pos hc, if_neg hrk]; simp [resolveWith, h4]
            · rw [if_neg hc]; simp [resolveWith, h4]
      | errorEv =>
        have hsv : s.seekTarget = none := by
          simpa [extractStep, resolveWith] using hst
        have := hvalid hsv
        simpa [seekedAfterMeta] using this
      | timerFire =>
        have hsv : s.seekTarget = none := by
          revert hst
          simp only [extractStep]
          by_cases hg : (s.timerCleared || s.timerFired) = true
          · rw [if_pos hg]; exact fun h => h
          · rw [if_neg hg]; simp [resolveWith]
        have := hvalid hsv
        simpa [seekedAfterMeta] using this
    obtain ⟨ihInv, ihMono, ihTimer⟩ := ih (extractStep env t s e) hstepInv hstepValid
    refine ⟨ihInv, fun hr => ihMono (hstepMono hr), ?_⟩
    intro hmem
    rcases List.mem_cons.1 hmem with he | he
    · subst he
      apply ihMono
      simp only [extractStep]
      by_cases hg : (s.timerCleared || s.timerFired) = true
      · have hg2 := hg
        rw [Bool.or_eq_true] at hg2
        rcases hg2 with hgc | hgf
        · rw [if_pos hg]; exact h1 hgc
        · rw [if_pos hg]; exact h2 hgf
      · rw [if_neg hg]; simp [resolveWith]
    · exact ihTimer he

/-- Claim C5: under any event sequence in which a seek completion can only
follow metadata loading, every handler of the extractor resolves rather
than throwing; once the safety-timeout callback has run the promise is
resolved, so the extractor cannot hang beyond its 4000 ms timer; a run
still pending after all delivered events is one whose timer is still armed
(neither cleared nor fired), and the browser eventually fires an armed
timer; and any non-null resolution is the lossy JPEG (quality 0.85) of the
frame at the requested offset clamped to `min(seconds, duration - 0.1)`. -/
theorem C5_extract_resolves (env : ExtEnv) (t : Rat) (events : List ExtEvent)
    (hvalid : seekedAfterMeta events = true) :
    (ExtEvent.timerFire ∈ events → (runExtract env t events).resolved ≠ none) ∧
    (∀ img, (runExtract env t events).resolved = some (some img) →
      img.time = clampTime env t ∧ img.quality = 85 / 100) ∧
    ((runExtract env t events).resolved = none →
      (runExtract env t events).timerCleared = false ∧ ExtEvent.timerFire ∉ events) := by
  have hInit : ExtInv env t initExtState := by
    refine ⟨fun h => by simp [initExtState] at h, fun h => by simp [initExtState] at h,
      fun img him => by simp [initExtState] at him, Or.inl rfl⟩
  obtain ⟨hInv, hMono, hTimer⟩ := extract_aux env t events initExtState hInit (fun _ => hvalid)
  simp only [runExtract]
  refine ⟨hTimer, hInv.2.2.1, ?_⟩
  intro hpend
  constructor
  · by_contra hB
    have hc : (events.foldl (extractStep env t) initExtState).timerCleared = true := by
      revert hB
      cases (events.foldl (extractStep env t) initExtState).timerCleared <;> simp
    exact (hInv.1 hc) hpend
  · intro hmemT
    exact (hTimer hmemT) hpend

def extEnvW : ExtEnv := ⟨10, true, true⟩

/-- Claim C5, witness: on the concrete trace metadata-then-timeout the
promise is resolved. -/
theorem C5_extract_resolves_witness :
    (runExtract extEnvW 30 [ExtEvent.metadata, ExtEvent.timerFire]).resolved ≠ none :=
  (C5_extract_resolves extEnvW 30 [ExtEvent.metadata, ExtEvent.timerFire] (by decide)).1
    (by decide)

/-- Claim C6 (code bug): the off-screen video element is released only in
the `onseeked` handler (lines 149-151); on the timeout path (lines 127-129)
and the error path (lines 162-166) the promise resolves `null` but
`video.src` is never reset and the element never removed.  Evaluating the
run at the error-only and the timeout-only traces: both resolve, yet the
resource stays unreleased; the seeked path, by contrast, does release. -/
theorem C6_release_missing :
    (runExtract extEnvW 30 [ExtEvent.errorEv]).resolved = some none ∧
      (runExtract extEnvW 30 [ExtEvent.errorEv]).released = false ∧
      (runExtract extEnvW 30 [ExtEvent.timerFire]).resolved = some none ∧
      (runExtract extEnvW 30 [ExtEvent.timerFire]).released = false ∧
      (runExtract extEnvW 30 [ExtEvent.metadata, ExtEvent.seeked]).released = true := by
  refine ⟨by decide, by decide, by decide, by decide, by decide⟩

/-! The processing pipeline `handleGenerateSummary` (App component,
src/unnamed/part_002 lines 86-144) and the uploader validation
`validateAndProcessFile` (FileUploader, src/unnamed/part_000 lines 16-29). -/

/-- The `ProcessingStatus` enum of src/types.ts. -/
inductive ProcessingStatus
  | IDLE
  | COMPRESSING
  | PROCESSING_VIDEO
  | ANALYZING
  | COMPLETE
  | ERROR
deriving DecidableEq

/-- Which binary a pipeline step operates on: the user's original file
(`video.file`) or the compressed derivative produced by `compressVideo`. -/
inductive FileRef
  | original
  | compressedDerivative
deriving DecidableEq

/-- Outcomes of the three fallible external steps of one run:
`compressVideo`, `convertBlobToBase64` and `summarizeVideo`. -/
structure RunEnv where
  compressOk : Bool
  encodeOk : Bool
  analyzeOk : Bool

/-- The compression trigger `sizeMB > 19` with `sizeMB = size/(1024*1024)`
(part_002 lines 93-97); the float comparison is exact for any real file
size, so in bytes the condition is `size > 19 * 1024 * 1024`. -/
def sizeThreshold : Nat := 19 * 1024 * 1024

/-- One run of the pipeline, observed as the ordered list of `setStatus`
calls plus which file was handed to `compressVideo` and to
`convertBlobToBase64`. -/
structure RunResult where
  statuses : List ProcessingStatus
  compressionInput : Option FileRef
  encodingInput : Option FileRef
deriving DecidableEq

/-- The tail of `handleGenerateSummary` after the compression branch
(part_002 lines 117-143): `PROCESSING_VIDEO` (base64 encoding), then
`ANALYZING`, then `COMPLETE`; any rejection lands in the shared `catch`
which sets `ERROR`. -/
def encodeAndAnalyze (f : FileRef) (env : RunEnv) : RunResult :=
  if env.encodeOk then
    if env.analyzeOk then
      ⟨[ProcessingStatus.PROCESSING_VIDEO, ProcessingStatus.ANALYZING,
        ProcessingStatus.COMPLETE], none, some f⟩
    else
      ⟨[ProcessingStatus.PROCESSING_VIDEO, ProcessingStatus.ANALYZING,
        ProcessingStatus.ERROR], none, some f⟩
  else
    ⟨[ProcessingStatus.PROCESSING_VIDEO, ProcessingStatus.ERROR], none, some f⟩

/-- Model of `handleGenerateSummary` (part_002 lines 86-144): `size` is the
byte size of `video.file` — the original source file, which is what every
invocation (including the `Retry_Operation` button of lines 282-292) reads;
the compressed derivative only ever lives in the local `processingFile`. -/
def handleGenerateSummary (size : Nat) (env : RunEnv) : RunResult :=
  if size > sizeThreshold then
    if env.compressOk then
      let r := encodeAndAnalyze FileRef.compressedDerivative env
      ⟨ProcessingStatus.COMPRESSING :: r.statuses, some FileRef.original, r.encodingInput⟩
    else
      ⟨[ProcessingStatus.COMPRESSING, ProcessingStatus.ERROR], some FileRef.original, none⟩
  else
    let r := encodeAndAnalyze FileRef.original env
    ⟨r.statuses, none, r.encodingInput⟩

/-- Adjacent pairs of a status list: the transitions of a run. -/
def transPairs (l : List ProcessingStatus) : List (ProcessingStatus × ProcessingStatus) :=
  l.zip l.tail

/-- Claim C7: a start with a source above the 19 MiB threshold enters
`Compressing` first and only once, so any later `Encoding` comes after it,
and on compression success the compressed derivative is what gets encoded;
a start at or below the threshold enters `Encoding` directly, never visits
`Compressing`, and encodes the original binary. -/
theorem C7_size_threshold (size : Nat) (env : RunEnv) :
    (size > sizeThreshold →
      (handleGenerateSummary size env).statuses.head? = some ProcessingStatus.COMPRESSING ∧
      ProcessingStatus.COMPRESSING ∉ (handleGenerateSummary size env).statuses.tail ∧
      (env.compressOk = true →
        (handleGenerateSummary size env).encodingInput = some FileRef.compressedDerivative)) ∧
    (size ≤ sizeThreshold →
      ProcessingStatus.COMPRESSING ∉ (handleGenerateSummary size env).statuses ∧
      (handleGenerateSummary size env).statuses.head? = some ProcessingStatus.PROCESSING_VIDEO ∧
      (handleGenerateSummary size env).encodingInput = some FileRef.original) := by
  rcases env with ⟨c, e, a⟩
  constructor
  · intro h
    cases c <;> cases e <;> cases a <;>
      simp [handleGenerateSummary, encodeAndAnalyze, h]
  · intro h2
    have h : ¬ size > sizeThreshold := by omega
    cases c <;> cases e <;> cases a <;>
      simp [handleGenerateSummary, encodeAndAnalyze, h]

/-- Claim C7, witness: a 20 MiB source with all steps succeeding compresses
first and encodes the derivative; a 1 KiB source starts at encoding. -/
theorem C7_size_threshold_witness :
    ((handleGenerateSummary (20 * 1024 * 1024) ⟨true, true, true⟩).statuses.head?
        = some ProcessingStatus.COMPRESSING ∧
      (handleGenerateSummary (20 * 1024 * 1024) ⟨true, true, true⟩).encodingInput
        = some FileRef.compressedDerivative) ∧
      ProcessingStatus.COMPRESSING ∉ (handleGenerateSummary 1024 ⟨true, true, true⟩).statuses := by
  have h1 := (C7_size_threshold (20 * 1024 * 1024) ⟨true, true, true⟩).1 (by decide)
  have h2 := (C7_size_threshold 1024 ⟨true, true, true⟩).2 (by decide)
  exact ⟨⟨h1.1, h1.2.2 rfl⟩, h2.1⟩

/-- Claim C8: in any run of the pipeline, every transition into `ERROR`
comes from `COMPRESSING`, `PROCESSING_VIDEO` (Encoding) or `ANALYZING` —
never from the pre-run state, since the first status a run sets is never
`ERROR` but the size-rule entry state; and each run (in particular a retry
launched from `ERROR`) re-enters via the same size rule computed on the
original file, handing the original — never a previous derivative — to the
compressor. -/
theorem C8_error_transitions (size : Nat) (env : RunEnv) :
    (∀ p ∈ transPairs (handleGenerateSummary size env).statuses,
      p.2 = ProcessingStatus.ERROR →
        p.1 = ProcessingStatus.COMPRESSING ∨ p.1 = ProcessingStatus.PROCESSING_VIDEO ∨
          p.1 = ProcessingStatus.ANALYZING) ∧
    ((handleGenerateSummary size env).statuses.head? ≠ some ProcessingStatus.ERROR) ∧
    ((handleGenerateSummary size env).statuses.head?
      = some (if size > sizeThreshold then ProcessingStatus.COMPRESSING
        else ProcessingStatus.PROCESSING_VIDEO)) ∧
    ((handleGenerateSummary size env).compressionInput
      = if size > sizeThreshold then some FileRef.original else none) := by
  rcases env with ⟨c, e, a⟩
  by_cases h : size > sizeThreshold <;>
    cases c <;> cases e <;> cases a <;>
      simp [handleGenerateSummary, encodeAndAnalyze, transPairs, h]

/-- Claim C8, witness: with an analysis failure on a small file the only
`ERROR`-entering transition observed is from `ANALYZING`, and a retry on an
oversized original re-enters `COMPRESSING` feeding the original file. -/
theorem C8_error_transitions_witness :
    ((ProcessingStatus.ANALYZING, ProcessingStatus.ERROR).1 = ProcessingStatus.COMPRESSING ∨
      (ProcessingStatus.ANALYZING, ProcessingStatus.ERROR).1 = ProcessingStatus.PROCESSING_VIDEO ∨
      (ProcessingStatus.ANALYZING, ProcessingStatus.ERROR).1 = ProcessingStatus.ANALYZING) ∧
    (handleGenerateSummary (20 * 1024 * 1024) ⟨false, true, true⟩).compressionInput
      = some FileRef.original := by
  constructor
  · exact (C8_error_transitions 1024 ⟨true, true, false⟩).1
      (ProcessingStatus.ANALYZING, ProcessingStatus.ERROR) (by decide) rfl
  · have h := (C8_error_transitions (20 * 1024 * 1024) ⟨false, true, true⟩).2.2.2
    rw [h]
    decide

/-- A selected file as the uploader sees it: its MIME type and byte size. -/
structure JsFile where
  fileType : List Char
  size : Nat

/-- The three outcomes of `validateAndProcessFile` (part_000 lines 16-29):
format rejection, size rejection, or acceptance (which creates the
VideoAsset via `onFileSelect`). -/
inductive ValidateResult
  | errFormat
  | errSize
  | accepted
deriving DecidableEq

/-- `MAX_FILE_SIZE_MB` of part_000 line 10. -/
def MAX_FILE_SIZE_MB : Nat := 19

/-- Model of `validateAndProcessFile` (part_000 lines 16-29):
`file.type.startsWith('video/')`, then `file.size/(1024*1024) > 19`
(exact in float arithmetic, so `size > 19 * 1024 * 1024` in bytes). -/
def validateAndProcessFile (f : JsFile) : ValidateResult :=
  if ("video/".toList).isPrefixOf f.fileType then
    if f.size > MAX_FILE_SIZE_MB * 1024 * 1024 then ValidateResult.errSize
    else ValidateResult.accepted
  else ValidateResult.errFormat

/-- Claim C10: every uploader-accepted file is at most 19 MiB (larger video
files are rejected with the size error before any VideoAsset exists), and
since compression triggers only strictly above the same 19 MiB bound, a
pipeline started on an accepted file never visits `COMPRESSING` and never
calls the compressor — the compression branch is unreachable through the
public upload interface. -/
theorem C10_compression_unreachable (f : JsFile) (env : RunEnv) :
    (validateAndProcessFile f = ValidateResult.accepted →
      f.size ≤ sizeThreshold ∧
      ProcessingStatus.COMPRESSING ∉ (handleGenerateSummary f.size env).statuses ∧
      (handleGenerateSummary f.size env).compressionInput = none) ∧
    (("video/".toList).isPrefixOf f.fileType = true → f.size > sizeThreshold →
      validateAndProcessFile f = ValidateResult.errSize) := by
  constructor
  · intro hacc
    by_cases hp : ("video/".toList).isPrefixOf f.fileType = true
    · by_cases hs : f.size > MAX_FILE_SIZE_MB * 1024 * 1024
      · exfalso
        simp only [validateAndProcessFile] at hacc
        rw [if_pos hp, if_pos hs] at hacc
        exact absurd hacc (by decide)
      · have hsz : f.size ≤ sizeThreshold := by
          simp only [sizeThreshold]
          simp only [MAX_FILE_SIZE_MB] at hs
          omega
        refine ⟨hsz, ?_, ?_⟩
        · exact ((C7_size_threshold f.size env).2 hsz).1
        · have hci := (C8_error_transitions f.size env).2.2.2
          rw [hci, if_neg (by omega)]
    · exfalso
      simp only [validateAndProcessFile] at hacc
      rw [if_neg hp] at hacc
      exact absurd hacc (by decide)
  · intro hp hs
    have hs2 : f.size > MAX_FILE_SIZE_MB * 1024 * 1024 := by
      simp only [MAX_FILE_SIZE_MB]
      simp only [sizeThreshold] at hs
      omega
    simp only [validateAndProcessFile]
    rw [if_pos hp, if_pos hs2]

/-- Claim C10, witness: a 1000-byte `video/mp4` file is accepted and its
pipeline run (all steps succeeding) never compresses. -/
theorem C10_compression_unreachable_witness :
    1000 ≤ sizeThreshold ∧
      ProcessingStatus.COMPRESSING
        ∉ (handleGenerateSummary 1000 ⟨true, true, true⟩).statuses ∧
      (handleGenerateSummary 1000 ⟨true, true, true⟩).compressionInput = none :=
  (C10_compression_unreachable ⟨"video/mp4".toList, 1000⟩ ⟨true, true, true⟩).1 (by decide)
